import Mathlib

/-!
Verification of the match-extraction and query-compilation core of
`src/search/FindInFiles.js` (a "find in files" feature).

The JavaScript is embedded shallowly:

* strings are `List Char`;
* a compiled `RegExp` is a `CompiledPattern` (source text plus flag
  characters); the fragment of regular-expression syntax this module
  actually produces or needs (literal characters, backslash identity
  escapes, and the `.` metacharacter) is interpreted through `parseSource`
  into a token list `List RTok`, and matching of a token list against text
  is `matchToksAt`;
* `RegExp.prototype.exec` with the global flag is `jsExec` (explicit
  `lastIndex` state), `String.prototype.search` is `jsSearch`;
* the possibly non-terminating `while (exec) {...}` loop of
  `_getSearchMatches` is modelled with explicit fuel (`execLoop`): a
  `none` result means the loop performed `fuel` iterations without
  finishing, so divergence of the JavaScript loop is the statement that
  every fuel amount returns `none`.

Machine integers do not occur: all JavaScript numbers involved are small
array indices, modelled as `Nat` (or `Int` where the source can produce
`-1` sentinels).
-/

set_option autoImplicit false
set_option maxRecDepth 4000

namespace FindInFiles

/-! ## Query compilation (`_getQueryRegExp`) -/

/-- The characters escaped by the literal-query branch of
`_getQueryRegExp`: the class `[(){}\[\].\^$|?+*\\]` of the `replace` call. -/
def regexMetachars : List Char :=
  ['(', ')', '{', '}', '[', ']', '.', '^', '$', '|', '?', '+', '*', '\\']

/-- `query.replace(/([(){}\[\].\^$|?+*\\])/g, "\\$1")`: prepend a backslash
to every metacharacter occurrence. -/
def escapeRegex : List Char → List Char
  | [] => []
  | c :: rest =>
    if c ∈ regexMetachars then '\\' :: c :: escapeRegex rest
    else c :: escapeRegex rest

/-- A token of the regular-expression fragment interpreted here: a literal
character, or the `.` metacharacter (any character except a line
terminator). -/
inductive RTok where
  | lit (c : Char)
  | dot
deriving DecidableEq

/-- Metacharacters whose regex meaning is outside the interpreted fragment;
a source containing one unescaped does not parse. -/
def unsupportedMeta : List Char :=
  ['(', ')', '{', '}', '[', ']', '^', '$', '|', '?', '+', '*']

/-- Parse a regular-expression source string into the interpreted token
fragment.  A backslash followed by a non-alphanumeric character is a
JavaScript identity escape (alphanumeric escapes such as `\d` are character
classes and are outside the fragment); an unescaped `.` is the
any-character token; other metacharacters are rejected. -/
def parseSource : List Char → Option (List RTok)
  | [] => some []
  | c :: rest =>
    if c = '\\' then
      match rest with
      | [] => none
      | d :: rest2 =>
        if d.isAlphanum then none
        else (parseSource rest2).map (fun ts => RTok.lit d :: ts)
    else if c = '.' then (parseSource rest).map (fun ts => RTok.dot :: ts)
    else if c ∈ unsupportedMeta then none
    else (parseSource rest).map (fun ts => RTok.lit c :: ts)

/-- A compiled `RegExp`: its source and its flag characters. -/
structure CompiledPattern where
  source : List Char
  flags : List Char
deriving DecidableEq

/-- The four JavaScript line terminators (`\n`, `\r`, U+2028, U+2029),
which the `.` metacharacter does not match. -/
def isLineTerminator (c : Char) : Bool :=
  c = '\n' ∨ c = '\r' ∨ c = '\u2028' ∨ c = '\u2029'

/-- One candidate split of the shape test `^\/(.*)\/(g|i)*$` (after the
leading slash): body = first `k` characters, which must be free of line
terminators (`.` matches none of `\n`, `\r`, U+2028, U+2029), then a slash,
then only flag characters `g`/`i`. -/
def regexShapeAt (rest : List Char) (k : Nat) : Option (List Char × List Char) :=
  match rest.drop k with
  | '/' :: f =>
    if (rest.take k).all (fun c => !isLineTerminator c)
        && f.all (fun c => c = 'g' ∨ c = 'i') then
      some (rest.take k, f)
    else none
  | _ => none

/-- `query.match(/^\/(.*)\/(g|i)*$/)`: the greedy `(.*)` takes the longest
feasible body, so candidate split points are tried from the right.  Returns
the captured body and the full flag string on success. -/
def parseRegexQuery : List Char → Option (List Char × List Char)
  | '/' :: rest => ((List.range (rest.length + 1)).reverse).findSome? (regexShapeAt rest)
  | _ => none

/-- `_getQueryRegExp(query)` from `FindInFiles.js`.  In the regex branch,
`isRE[2]` is the capture of the repeated group `(g|i)*`, which in
JavaScript retains only the last repetition: a single flag character, or
absent when the flag string is empty (then `isRE[2] || "g"` yields `"g"`).
`g` is appended when missing.  In the literal branch the query is escaped
and compiled with flags `"gi"`. -/
def _getQueryRegExp (query : List Char) : CompiledPattern :=
  match parseRegexQuery query with
  | some (body, flagStr) =>
    let flags : List Char :=
      match flagStr.getLast? with
      | some c => [c]
      | none => ['g']
    let flags : List Char := if 'g' ∈ flags then flags else flags ++ ['g']
    ⟨body, flags⟩
  | none => ⟨escapeRegex query, ['g', 'i']⟩

/-! ## Matching semantics for the interpreted fragment -/

/-- Whether one token matches one character, under the `i` flag
(JavaScript canonicalisation, ASCII case folding here). `.` matches any
character except a line terminator. -/
def tokMatches (ic : Bool) : RTok → Char → Bool
  | RTok.lit c, d => if ic then c.toLower = d.toLower else c = d
  | RTok.dot, d => !isLineTerminator d

/-- Whether the token list matches at the head of the text (each token
consumes exactly one character). -/
def matchToksAt (ic : Bool) : List RTok → List Char → Bool
  | [], _ => true
  | _ :: _, [] => false
  | t :: ts, c :: cs => tokMatches ic t c && matchToksAt ic ts cs

/-- First index `≥ i` at which the tokens match, scanning `s` (the text
from position `i` on) left to right. -/
def firstMatchAux (ic : Bool) (toks : List RTok) : List Char → Nat → Option Nat
  | [], i => if matchToksAt ic toks [] then some i else none
  | c :: rest, i =>
    if matchToksAt ic toks (c :: rest) then some i
    else firstMatchAux ic toks rest (i + 1)

/-- `String.prototype.search`: index of the first match anywhere, ignoring
`lastIndex`; `none` models the `-1` result. -/
def jsSearch (ic : Bool) (toks : List RTok) (text : List Char) : Option Nat :=
  firstMatchAux ic toks text 0

/-- `RegExp.prototype.exec` of a global pattern: fails when `lastIndex`
exceeds the text length, otherwise finds the first match at or after
`lastIndex` and reports its index.  The matched length is `toks.length`. -/
def jsExec (ic : Bool) (toks : List RTok) (text : List Char) (lastIndex : Nat) : Option Nat :=
  if lastIndex ≤ text.length then firstMatchAux ic toks (text.drop lastIndex) lastIndex
  else none

/-! ## Match extraction (`_getSearchMatches`) -/

/-- A CodeMirror-style position `{line, ch}`.  `ch` is `Int` because the
source computes `match.index - contents.lastIndexOf("\n", match.index) - 1`,
which is `-1` when the match starts on a newline character. -/
structure Pos where
  line : Nat
  ch : Int
deriving DecidableEq

/-- One search match: start and end positions plus the (truncated) text of
the containing line.  `stop` stands for the source's `end` field. -/
structure SMatch where
  start : Pos
  stop : Pos
  line : List Char
deriving DecidableEq

/-- Modelled from the spec: `StringUtils.getLines` (module `utils/StringUtils`,
not under `src/`) splits the text into newline-delimited lines once. -/
def getLines : List Char → List (List Char)
  | [] => [[]]
  | c :: rest =>
    if c = '\n' then [] :: getLines rest
    else
      match getLines rest with
      | l :: ls => (c :: l) :: ls
      | [] => [[c]]

/-- Modelled from the spec: `StringUtils.offsetToLineNum` (module
`utils/StringUtils`, not under `src/`) derives the 0-based line number by
counting line breaks strictly before the offset. -/
def offsetToLineNum (contents : List Char) (offset : Nat) : Nat :=
  (contents.take offset).count '\n'

/-- `contents.lastIndexOf("\n", i)`: the largest index `j ≤ i` holding a
newline, or `-1` when there is none. -/
def lastNewlineLE (contents : List Char) (i : Nat) : Int :=
  match ((List.range (i + 1)).filter (fun j => contents.getD j ' ' = '\n')).getLast? with
  | some j => (j : Int)
  | none => -1

/-- The body of the `while` loop of `_getSearchMatches`: build one match
record from the exec index `idx` and matched length `len`. -/
def mkMatch (contents : List Char) (idx len : Nat) : SMatch :=
  { start := ⟨offsetToLineNum contents idx,
      (idx : Int) - lastNewlineLE contents idx - 1⟩
    stop := ⟨offsetToLineNum contents idx,
      ((idx : Int) - lastNewlineLE contents idx - 1) + (len : Int)⟩
    line := ((getLines contents).getD (offsetToLineNum contents idx) []).take
      (min 200 ((getLines contents).getD (offsetToLineNum contents idx) []).length) }

/-- The `while ((match = queryExpr.exec(contents)) !== null)` loop, with
explicit `lastIndex` state and fuel.  `none` means the loop did not finish
within `fuel` iterations; since a successful JavaScript exec of a global
pattern sets `lastIndex` to the end of the match, the new state after a
match at `idx` is `idx + toks.length`. -/
def execLoop (ic : Bool) (toks : List RTok) (contents : List Char) :
    Nat → Nat → Option (List SMatch)
  | 0, _ => none
  | fuel + 1, lastIndex =>
    match jsExec ic toks contents lastIndex with
    | none => some []
    | some idx =>
      (execLoop ic toks contents fuel (idx + toks.length)).map
        (fun ms => mkMatch contents idx toks.length :: ms)

/-- `_getSearchMatches(contents, queryExpr)`.  The result is
`some none` for the early `return null` (no match anywhere), `some (some ms)`
for a returned match array, and `none` when the exec loop exhausted the
fuel (the JavaScript would still be looping). -/
def getSearchMatchesF (fuel : Nat) (ic : Bool) (toks : List RTok)
    (contents : List Char) : Option (Option (List SMatch)) :=
  if jsSearch ic toks contents = none then some none
  else (execLoop ic toks contents fuel 0).map some

/-- `getSearchMatchesF` with fuel `contents.length + 1`, which suffices for
every pattern that cannot match the empty string. -/
def getSearchMatchesRun (ic : Bool) (toks : List RTok) (contents : List Char) :
    Option (Option (List SMatch)) :=
  getSearchMatchesF (contents.length + 1) ic toks contents

/-! ## Orchestration (`doFindInFiles`) -/

/-- One entry of the search-result list: a file path and its match list
(the source's `matches` field; `matches` is reserved in Lean). -/
structure FileResult where
  fullPath : List Char
  matchList : List SMatch
deriving DecidableEq

/-- Treatment of one settled file load in `doFindInFiles`: a failed load
(`none`) resolves and contributes nothing; a loaded text contributes an
entry when its match list is non-null and non-empty. -/
def doFindStep (ic : Bool) (toks : List RTok) (acc : List FileResult)
    (fi : List Char × Option (List Char)) : List FileResult :=
  match fi.2 with
  | none => acc
  | some text =>
    match getSearchMatchesRun ic toks text with
    | some (some ms) => if ms.isEmpty then acc else acc ++ [⟨fi.1, ms⟩]
    | _ => acc

/-- Modelled from the spec: the `Async.doInParallel` fan-out of
`doFindInFiles` (module `utils/Async`, not under `src/`) loads every file's
text, where loading may fail (`none`); the `src/` handlers then either push
a result (load succeeded, match list non-null and non-empty) or resolve and
continue (load failed, or no matches).  The join is modelled sequentially
in file-list order. -/
def doFindInFilesModel (ic : Bool) (toks : List RTok)
    (files : List (List Char × Option (List Char))) : List FileResult :=
  files.foldl (doFindStep ic toks) []

/-- The 10,000-character single-line text of the excerpt-truncation
scenario: a `foo` at offset 5000 surrounded by `x` characters. -/
def bigText : List Char :=
  List.replicate 5000 'x' ++ ('f' :: 'o' :: 'o' :: List.replicate 4997 'x')

/-! ## Lemmas about the literal branch of the query compiler -/

theorem meta_not_alphanum {c : Char} (h : c ∈ regexMetachars) : c.isAlphanum = false := by
  fin_cases h <;> decide

theorem unsupported_sub_meta {c : Char} (h : c ∈ unsupportedMeta) : c ∈ regexMetachars := by
  fin_cases h <;> decide

theorem escapeRegex_flatMap (q : List Char) :
    escapeRegex q = q.flatMap (fun c => if c ∈ regexMetachars then ['\\', c] else [c]) := by
  induction q with
  | nil => rfl
  | cons c rest ih => by_cases hc : c ∈ regexMetachars <;> simp [escapeRegex, hc, ih]

theorem parseSource_escape (q : List Char) :
    parseSource (escapeRegex q) = some (q.map RTok.lit) := by
  induction q with
  | nil => rfl
  | cons c rest ih =>
    by_cases hc : c ∈ regexMetachars
    · have hna := meta_not_alphanum hc
      simp [escapeRegex, hc, parseSource, hna, ih]
    · have h1 : c ≠ '\\' := fun h => hc (h ▸ (by decide : '\\' ∈ regexMetachars))
      have h2 : c ≠ '.' := fun h => hc (h ▸ (by decide : '.' ∈ regexMetachars))
      have h3 : c ∉ unsupportedMeta := fun h => hc (unsupported_sub_meta h)
      rw [escapeRegex, if_neg hc, parseSource.eq_def]
      simp [h1, h2, h3, ih]

theorem tokMatches_lit_true (c d : Char) :
    tokMatches true (RTok.lit c) d = decide (c.toLower = d.toLower) := rfl

theorem matchToksAt_map_lit (q : List Char) :
    ∀ s : List Char,
      matchToksAt true (q.map RTok.lit) s = true ↔
        ((s.take q.length).map Char.toLower = q.map Char.toLower ∧ q.length ≤ s.length) := by
  induction q with
  | nil => intro s; simp [matchToksAt]
  | cons c cs ih =>
    intro s
    cases s with
    | nil => simp [matchToksAt]
    | cons d ds =>
      simp only [List.map_cons, matchToksAt, tokMatches_lit_true, Bool.and_eq_true,
        decide_eq_true_eq, ih ds, List.length_cons, List.take_succ_cons, List.cons.injEq,
        Nat.succ_le_succ_iff]
      constructor
      · rintro ⟨h1, h2, h3⟩
        exact ⟨⟨h1.symm, h2⟩, h3⟩
      · rintro ⟨⟨h1, h2⟩, h3⟩
        exact ⟨h1.symm, h2, h3⟩

/-! ## Lemmas about the regex branch of the query compiler -/

theorem global_flag_mem {q b f : List Char} (h : parseRegexQuery q = some (b, f)) :
    'g' ∈ (_getQueryRegExp q).flags := by
  cases hl : f.getLast? with
  | none => simp [_getQueryRegExp, h, hl]
  | some c =>
    by_cases hc : c = 'g'
    · subst hc; simp [_getQueryRegExp, h, hl]
    · have hgc : ¬ ('g' = c) := fun he => hc he.symm
      simp [_getQueryRegExp, h, hl, hgc]

theorem regex_branch_eq {q b f : List Char} (h : parseRegexQuery q = some (b, f)) :
    (_getQueryRegExp q).source = b
    ∧ (_getQueryRegExp q).flags =
        (match f.getLast? with
         | none => ['g']
         | some c => if c = 'g' then ['g'] else [c, 'g']) := by
  cases hl : f.getLast? with
  | none => simp [_getQueryRegExp, h, hl]
  | some c =>
    by_cases hc : c = 'g'
    · subst hc; simp [_getQueryRegExp, h, hl]
    · have hgc : ¬ ('g' = c) := fun he => hc he.symm
      simp [_getQueryRegExp, h, hl, hgc, hc]

theorem parseRegexQuery_shape {q b f : List Char} (h : parseRegexQuery q = some (b, f)) :
    q = '/' :: (b ++ '/' :: f) ∧ (∀ c ∈ b, isLineTerminator c = false)
      ∧ (∀ c ∈ f, c = 'g' ∨ c = 'i') := by
  unfold parseRegexQuery at h
  split at h
  · rename_i rest
    obtain ⟨k, _, hk⟩ := List.exists_of_findSome?_eq_some h
    unfold regexShapeAt at hk
    split at hk
    · rename_i f' hdrop
      split at hk
      · rename_i hcond
        rw [Bool.and_eq_true, List.all_eq_true, List.all_eq_true] at hcond
        obtain ⟨hb, hf⟩ := hcond
        injection hk with hk
        injection hk with hk1 hk2
        subst hk1; subst hk2
        refine ⟨?_, ?_, ?_⟩
        · exact congrArg (fun t => '/' :: t)
            (by rw [← hdrop]; exact (List.take_append_drop k rest).symm)
        · intro c hc
          simpa using hb c hc
        · intro c hc
          simpa using hf c hc
      · exact absurd hk (by simp)
    · exact absurd hk (by simp)
  · exact absurd h (by simp)

theorem parseRegexQuery_complete (b f : List Char)
    (hb : ∀ c ∈ b, isLineTerminator c = false) (hf : ∀ c ∈ f, c = 'g' ∨ c = 'i') :
    parseRegexQuery ('/' :: (b ++ '/' :: f)) ≠ none := by
  intro h
  have h2 : ((List.range ((b ++ '/' :: f).length + 1)).reverse).findSome?
      (regexShapeAt (b ++ '/' :: f)) = none := h
  rw [List.findSome?_eq_none_iff] at h2
  have hk : b.length ∈ (List.range ((b ++ '/' :: f).length + 1)).reverse := by
    simp only [List.mem_reverse, List.mem_range, List.length_append]
    omega
  have hnone := h2 _ hk
  unfold regexShapeAt at hnone
  rw [List.drop_left, List.take_left] at hnone
  simp at hnone
  obtain ⟨x, hx, hxg, hxi⟩ := hnone hb
  rcases hf x hx with rfl | rfl
  · exact hxg rfl
  · exact hxi rfl

/-! ## Claim theorems on the query compiler -/

/-- C1: a query without the slash-delimited regex shape (the shape's `.`
rejects all four line terminators, so e.g. `/a\rb/` is a literal query) is
compiled by escaping every regex metacharacter of `( ) { } [ ] . ^ $ | ? + * \`
with a preceding backslash and compiling with flags `gi` (case-insensitive,
global); matching the resulting pattern finds exactly the literal
case-insensitive occurrences of the query, so query `a.b` matches the text
`a.b` and does not match `axb`. -/
theorem literal_query_compilation (q : List Char) (h : parseRegexQuery q = none) :
    _getQueryRegExp q = ⟨escapeRegex q, ['g', 'i']⟩
    ∧ escapeRegex q = q.flatMap (fun c => if c ∈ regexMetachars then ['\\', c] else [c])
    ∧ parseSource (escapeRegex q) = some (q.map RTok.lit)
    ∧ (∀ s : List Char, matchToksAt true (q.map RTok.lit) s = true ↔
        ((s.take q.length).map Char.toLower = q.map Char.toLower ∧ q.length ≤ s.length))
    ∧ _getQueryRegExp ['a', '.', 'b'] = ⟨['a', '\\', '.', 'b'], ['g', 'i']⟩
    ∧ _getQueryRegExp ['/', 'a', '\r', 'b', '/']
        = ⟨['/', 'a', '\r', 'b', '/'], ['g', 'i']⟩
    ∧ getSearchMatchesRun true (['a', '.', 'b'].map RTok.lit) ['a', '.', 'b']
        = some (some [⟨⟨0, 0⟩, ⟨0, 3⟩, ['a', '.', 'b']⟩])
    ∧ getSearchMatchesRun true (['a', '.', 'b'].map RTok.lit) ['a', 'x', 'b'] = some none :=
  ⟨by simp [_getQueryRegExp, h], escapeRegex_flatMap q, parseSource_escape q,
    matchToksAt_map_lit q, by decide, by decide, by decide, by decide⟩

/-- Witness for C1 at the concrete query `a.b`. -/
theorem literal_query_compilation_witness :
    _getQueryRegExp ['a', '.', 'b'] = ⟨escapeRegex ['a', '.', 'b'], ['g', 'i']⟩ :=
  (literal_query_compilation ['a', '.', 'b'] (by decide)).1

/-- C3: for every query of shape `/body/flags` the compiled pattern carries
the global flag even when the caller omitted it; concretely `/a/i` compiles
to source `a` with flags `ig`, and the extractor then finds all three
occurrences in the text `AAA`. -/
theorem global_flag_forced (q b f : List Char) (h : parseRegexQuery q = some (b, f)) :
    'g' ∈ (_getQueryRegExp q).flags
    ∧ _getQueryRegExp ['/', 'a', '/', 'i'] = ⟨['a'], ['i', 'g']⟩
    ∧ 'i' ∈ (_getQueryRegExp ['/', 'a', '/', 'i']).flags
    ∧ parseSource ['a'] = some [RTok.lit 'a']
    ∧ getSearchMatchesRun true [RTok.lit 'a'] ['A', 'A', 'A']
        = some (some
            [⟨⟨0, 0⟩, ⟨0, 1⟩, ['A', 'A', 'A']⟩,
             ⟨⟨0, 1⟩, ⟨0, 2⟩, ['A', 'A', 'A']⟩,
             ⟨⟨0, 2⟩, ⟨0, 3⟩, ['A', 'A', 'A']⟩]) :=
  ⟨global_flag_mem h, by decide, by decide, by decide, by decide⟩

/-- Witness for C3 at the concrete query `/a/i`. -/
theorem global_flag_forced_witness :
    'g' ∈ (_getQueryRegExp ['/', 'a', '/', 'i']).flags :=
  (global_flag_forced ['/', 'a', '/', 'i'] ['a'] ['i'] (by decide)).1

/-- C4 counterexample: for the query `/a/ig` the repeated capture group
`(g|i)*` retains only its last repetition, `g`, so the compiled flags are
exactly `g`: contrary to the claim, the `i` flag is not retained and the
compiled pattern is case-sensitive (it rejects the text `A`). -/
theorem slash_a_ig_loses_ignorecase :
    (_getQueryRegExp ['/', 'a', '/', 'i', 'g']).flags = ['g']
    ∧ ¬ ('i' ∈ (_getQueryRegExp ['/', 'a', '/', 'i', 'g']).flags)
    ∧ matchToksAt (decide ('i' ∈ (_getQueryRegExp ['/', 'a', '/', 'i', 'g']).flags))
        [RTok.lit 'a'] ['A'] = false :=
  ⟨by decide, by decide, by decide⟩

/-- C4 (amended): for a query of shape `/body/flags`, compile uses `body`
as the regular-expression source, but of the flags string only the last
character survives (the JavaScript repeated capture group `(g|i)*` keeps
its final repetition): the compiled flags are `g` when the last flag is
`g` or the flags are absent, and the last flag followed by `g` otherwise.
Hence `/a/gi` stays case-insensitive while `/a/ig` loses the `i` flag. -/
theorem regex_query_uses_last_flag (q b f : List Char)
    (h : parseRegexQuery q = some (b, f)) :
    (_getQueryRegExp q).source = b
    ∧ (_getQueryRegExp q).flags =
        (match f.getLast? with
         | none => ['g']
         | some c => if c = 'g' then ['g'] else [c, 'g'])
    ∧ _getQueryRegExp ['/', 'a', '/', 'g', 'i'] = ⟨['a'], ['i', 'g']⟩
    ∧ _getQueryRegExp ['/', 'a', '/', 'i', 'g'] = ⟨['a'], ['g']⟩ :=
  ⟨(regex_branch_eq h).1, (regex_branch_eq h).2, by decide, by decide⟩

/-- Witness for the amended C4 at the concrete query `/a/ig`. -/
theorem regex_query_uses_last_flag_witness :
    (_getQueryRegExp ['/', 'a', '/', 'i', 'g']).source = ['a'] :=
  (regex_query_uses_last_flag ['/', 'a', '/', 'i', 'g'] ['a'] ['i', 'g'] (by decide)).1

/-- C10: a query passes the regex shape test exactly when it is
slash-delimited with a body free of the four JavaScript line terminators
(`.` matches none of them) and every trailing flag character drawn from
`{g, i}`; `/a/m` fails the test (bad flag) and a query with `\r` in the
body fails it too, and each is compiled in its entirety (slashes included)
as a literal case-insensitive query; the literal-compiled `/a/m` then
matches the text `x/A/My` at the literal occurrence `/A/M`. -/
theorem regex_shape_characterization (q b f : List Char) :
    (parseRegexQuery q = some (b, f) →
        q = '/' :: (b ++ '/' :: f)
          ∧ (∀ c ∈ b, isLineTerminator c = false) ∧ (∀ c ∈ f, c = 'g' ∨ c = 'i'))
    ∧ ((∀ c ∈ b, isLineTerminator c = false) → (∀ c ∈ f, c = 'g' ∨ c = 'i') →
        parseRegexQuery ('/' :: (b ++ '/' :: f)) ≠ none)
    ∧ parseRegexQuery ['/', 'a', '/', 'm'] = none
    ∧ _getQueryRegExp ['/', 'a', '/', 'm'] = ⟨['/', 'a', '/', 'm'], ['g', 'i']⟩
    ∧ escapeRegex ['/', 'a', '/', 'm'] = ['/', 'a', '/', 'm']
    ∧ parseRegexQuery ['/', 'a', '\r', 'b', '/'] = none
    ∧ _getQueryRegExp ['/', 'a', '\r', 'b', '/']
        = ⟨['/', 'a', '\r', 'b', '/'], ['g', 'i']⟩
    ∧ getSearchMatchesRun true (['/', 'a', '/', 'm'].map RTok.lit) ['x', '/', 'A', '/', 'M', 'y']
        = some (some [⟨⟨0, 1⟩, ⟨0, 5⟩, ['x', '/', 'A', '/', 'M', 'y']⟩]) :=
  ⟨fun h => parseRegexQuery_shape h, fun hb hf => parseRegexQuery_complete b f hb hf,
   by decide, by decide, by decide, by decide, by decide, by decide⟩

/-- Witness for C10 at the concrete query `/a/i`. -/
theorem regex_shape_characterization_witness :
    (['/', 'a', '/', 'i'] : List Char) = '/' :: (['a'] ++ '/' :: ['i'])
      ∧ (∀ c ∈ (['a'] : List Char), isLineTerminator c = false)
      ∧ (∀ c ∈ (['i'] : List Char), c = 'g' ∨ c = 'i') :=
  (regex_shape_characterization ['/', 'a', '/', 'i'] ['a'] ['i']).1 (by decide)

/-! ## Lemmas about the scan and the exec loop -/

theorem firstMatchAux_eq_none_iff (ic : Bool) (toks : List RTok) :
    ∀ (s : List Char) (i : Nat),
      firstMatchAux ic toks s i = none ↔ ∀ k, matchToksAt ic toks (s.drop k) = false := by
  intro s
  induction s with
  | nil =>
    intro i
    cases hm : matchToksAt ic toks [] with
    | true =>
      have hs : firstMatchAux ic toks [] i = some i := by
        unfold firstMatchAux
        exact if_pos hm
      rw [hs]
      simp only [List.drop_nil]
      constructor
      · intro h; exact absurd h (by simp)
      · intro h; exact absurd (h 0) (by simp [hm])
    | false =>
      have hn : firstMatchAux ic toks [] i = none := by
        have hcond : ¬ (matchToksAt ic toks [] = true) := by simp [hm]
        unfold firstMatchAux
        exact if_neg hcond
      rw [hn]
      simp only [List.drop_nil]
      exact ⟨fun _ _ => hm, fun _ => trivial⟩
  | cons c rest ih =>
    intro i
    cases hm : matchToksAt ic toks (c :: rest) with
    | true =>
      have hs : firstMatchAux ic toks (c :: rest) i = some i := by
        unfold firstMatchAux
        exact if_pos hm
      rw [hs]
      constructor
      · intro h; exact absurd h (by simp)
      · intro h
        have h0 := h 0
        rw [List.drop_zero] at h0
        exact absurd h0 (by simp [hm])
    | false =>
      have hcond : ¬ (matchToksAt ic toks (c :: rest) = true) := by simp [hm]
      have hn0 : firstMatchAux ic toks (c :: rest) i
          = if matchToksAt ic toks (c :: rest) = true then some i
            else firstMatchAux ic toks rest (i + 1) := rfl
      rw [hn0.trans (if_neg hcond), ih (i + 1)]
      constructor
      · intro h k
        cases k with
        | zero => rw [List.drop_zero]; exact hm
        | succ k => simpa using h k
      · intro h k
        simpa using h (k + 1)

theorem firstMatchAux_bounds (ic : Bool) (toks : List RTok) :
    ∀ (s : List Char) (i j : Nat),
      firstMatchAux ic toks s i = some j →
        i ≤ j ∧ matchToksAt ic toks (s.drop (j - i)) = true := by
  intro s
  induction s with
  | nil =>
    intro i j h
    cases hm : matchToksAt ic toks [] with
    | true =>
      simp only [firstMatchAux, hm, if_true, Option.some.injEq] at h
      subst h
      simpa using hm
    | false => simp [firstMatchAux, hm] at h
  | cons c rest ih =>
    intro i j h
    cases hm : matchToksAt ic toks (c :: rest) with
    | true =>
      simp only [firstMatchAux, hm, if_true, Option.some.injEq] at h
      subst h
      simpa using hm
    | false =>
      simp only [firstMatchAux, hm, Bool.false_eq_true, if_false] at h
      obtain ⟨h1, h2⟩ := ih (i + 1) j h
      refine ⟨by omega, ?_⟩
      have : j - i = (j - (i + 1)) + 1 := by omega
      rw [this, List.drop_succ_cons]
      exact h2

theorem matchToksAt_ne_nil {ic : Bool} {toks : List RTok} (ht : toks ≠ [])
    (h : matchToksAt ic toks [] = true) : False := by
  cases toks with
  | nil => exact ht rfl
  | cons t ts => simp [matchToksAt] at h

theorem matchToksAt_le_length (ic : Bool) :
    ∀ (toks : List RTok) (s : List Char),
      matchToksAt ic toks s = true → toks.length ≤ s.length := by
  intro toks
  induction toks with
  | nil => intro s _; simp
  | cons t ts ih =>
    intro s h
    cases s with
    | nil => simp [matchToksAt] at h
    | cons c cs =>
      simp only [matchToksAt, Bool.and_eq_true] at h
      have := ih cs h.2
      simp only [List.length_cons]
      omega

theorem execLoop_total (ic : Bool) (toks : List RTok) (contents : List Char)
    (ht : toks ≠ []) :
    ∀ (fuel lastIndex : Nat),
      contents.length + 1 ≤ lastIndex + fuel → lastIndex ≤ contents.length →
      execLoop ic toks contents fuel lastIndex ≠ none := by
  intro fuel
  induction fuel with
  | zero => intro L hL1 hL2; omega
  | succ fuel ih =>
    intro L hL1 hL2
    unfold execLoop
    cases hj : jsExec ic toks contents L with
    | none => simp
    | some idx =>
      have hfm : firstMatchAux ic toks (contents.drop L) L = some idx := by
        unfold jsExec at hj
        rw [if_pos hL2] at hj
        exact hj
      obtain ⟨hidx, hmatch⟩ := firstMatchAux_bounds ic toks _ L idx hfm
      rw [List.drop_drop] at hmatch
      have hdidx : L + (idx - L) = idx := by omega
      rw [hdidx] at hmatch
      have hlen := matchToksAt_le_length ic toks _ hmatch
      rw [List.length_drop] at hlen
      have htok : 1 ≤ toks.length := by
        cases toks with
        | nil => exact absurd rfl ht
        | cons t ts => simp
      have hincr : idx + toks.length ≤ contents.length := by omega
      intro hcon
      have hcon2 : Option.map (fun ms => mkMatch contents idx toks.length :: ms)
          (execLoop ic toks contents fuel (idx + toks.length)) = none := hcon
      rw [Option.map_eq_none'] at hcon2
      exact ih (idx + toks.length) (by omega) hincr hcon2

theorem execLoop_mem (ic : Bool) (toks : List RTok) (contents : List Char) :
    ∀ (fuel lastIndex : Nat) (ms : List SMatch),
      execLoop ic toks contents fuel lastIndex = some ms →
      ∀ m ∈ ms, ∃ idx, m = mkMatch contents idx toks.length := by
  intro fuel
  induction fuel with
  | zero => intro L ms h; exact absurd h (by simp [execLoop])
  | succ fuel ih =>
    intro L ms h
    unfold execLoop at h
    cases hj : jsExec ic toks contents L with
    | none =>
      rw [hj] at h
      simp only [Option.some.injEq] at h
      subst h
      intro m hm
      exact absurd hm (by simp)
    | some idx =>
      rw [hj] at h
      rw [Option.map_eq_some'] at h
      obtain ⟨ms', hms', rfl⟩ := h
      intro m hm
      rcases List.mem_cons.mp hm with rfl | hm'
      · exact ⟨idx, rfl⟩
      · exact ih _ _ hms' m hm'

theorem execLoop_nil_toks (ic : Bool) (contents : List Char) :
    ∀ fuel, execLoop ic [] contents fuel 0 = none := by
  intro fuel
  induction fuel with
  | zero => rfl
  | succ fuel ih =>
    have h0 : jsExec ic [] contents 0 = some 0 := by
      unfold jsExec
      rw [if_pos (Nat.zero_le _)]
      rw [List.drop_zero]
      cases contents with
      | nil => rfl
      | cons c rest =>
        have hstep : firstMatchAux ic [] (c :: rest) 0
            = if matchToksAt ic [] (c :: rest) = true then some 0
              else firstMatchAux ic [] rest 1 := rfl
        rw [hstep, if_pos (show matchToksAt ic [] (c :: rest) = true from rfl)]
    simp [execLoop, h0, ih]

/-! ## Claim theorems on the match extractor -/

/-- C2 (violated by the code): the query `//` passes the shape test with an
empty body, compiling to an empty pattern with flag `g`; an empty pattern
matches the empty string at every position, so exec succeeds without
advancing `lastIndex` and the extraction loop never finishes: for every
fuel bound and every text, the loop is still running. -/
theorem zero_width_query_never_terminates :
    _getQueryRegExp ['/', '/'] = ⟨[], ['g']⟩
    ∧ parseSource ([] : List Char) = some []
    ∧ (∀ (ic : Bool) (contents : List Char) (fuel : Nat),
        getSearchMatchesF fuel ic [] contents = none) := by
  refine ⟨by decide, rfl, fun ic contents fuel => ?_⟩
  have hs : jsSearch ic [] contents ≠ none := by
    unfold jsSearch
    cases contents with
    | nil =>
      have hstep : firstMatchAux ic [] ([] : List Char) 0
          = if matchToksAt ic [] ([] : List Char) = true then some 0 else none := rfl
      rw [hstep, if_pos (show matchToksAt ic [] ([] : List Char) = true from rfl)]
      simp
    | cons c rest =>
      have hstep : firstMatchAux ic [] (c :: rest) 0
          = if matchToksAt ic [] (c :: rest) = true then some 0
            else firstMatchAux ic [] rest 1 := rfl
      rw [hstep, if_pos (show matchToksAt ic [] (c :: rest) = true from rfl)]
      simp
  unfold getSearchMatchesF
  rw [if_neg hs, execLoop_nil_toks ic contents fuel]
  rfl

/-- C5: the extractor derives each match's 0-based line number as the count
of line breaks before the match offset and its 0-based column as the offset
minus the offset of the most recent preceding newline minus one; on the
text `foo\nbar foo\n` with query `foo` it returns exactly the two matches
`(0,0)-(0,3)` and `(1,4)-(1,7)`. -/
theorem match_positions (contents : List Char) (idx len : Nat) :
    ((mkMatch contents idx len).start.line = (contents.take idx).count '\n'
      ∧ (mkMatch contents idx len).start.ch
          = (idx : Int) - lastNewlineLE contents idx - 1
      ∧ (mkMatch contents idx len).stop.ch
          = (idx : Int) - lastNewlineLE contents idx - 1 + (len : Int))
    ∧ _getQueryRegExp ['f', 'o', 'o'] = ⟨['f', 'o', 'o'], ['g', 'i']⟩
    ∧ parseSource ['f', 'o', 'o'] = some [RTok.lit 'f', RTok.lit 'o', RTok.lit 'o']
    ∧ getSearchMatchesRun true [RTok.lit 'f', RTok.lit 'o', RTok.lit 'o']
        ['f', 'o', 'o', '\n', 'b', 'a', 'r', ' ', 'f', 'o', 'o', '\n']
      = some (some
          [⟨⟨0, 0⟩, ⟨0, 3⟩, ['f', 'o', 'o']⟩,
           ⟨⟨1, 4⟩, ⟨1, 7⟩, ['b', 'a', 'r', ' ', 'f', 'o', 'o']⟩]) :=
  ⟨⟨rfl, rfl, rfl⟩, by decide, by decide, by decide⟩

/-- C6: every extracted match has equal start and end lines, start not past
end, and an end column exceeding the start column by exactly the matched
length (every interpreted token consumes one character, so the matched text
length is the token count). -/
theorem match_invariants (fuel : Nat) (ic : Bool) (toks : List RTok)
    (contents : List Char) (ms : List SMatch) (m : SMatch)
    (h : getSearchMatchesF fuel ic toks contents = some (some ms)) (hm : m ∈ ms) :
    m.start.line = m.stop.line ∧ m.start.ch ≤ m.stop.ch
      ∧ m.stop.ch - m.start.ch = (toks.length : Int) := by
  have hex : execLoop ic toks contents fuel 0 = some ms := by
    unfold getSearchMatchesF at h
    by_cases hs : jsSearch ic toks contents = none
    · rw [if_pos hs] at h
      exact absurd h (by simp)
    · rw [if_neg hs] at h
      rw [Option.map_eq_some'] at h
      obtain ⟨ms', hms', heq⟩ := h
      injection heq with heq
      rw [heq] at hms'
      exact hms'
  obtain ⟨idx, rfl⟩ := execLoop_mem ic toks contents fuel 0 ms hex m hm
  refine ⟨rfl, ?_, ?_⟩
  · show ((idx : Int) - lastNewlineLE contents idx - 1)
        ≤ ((idx : Int) - lastNewlineLE contents idx - 1) + (toks.length : Int)
    have hnn : (0 : Int) ≤ (toks.length : Int) := Int.natCast_nonneg _
    omega
  · show (((idx : Int) - lastNewlineLE contents idx - 1) + (toks.length : Int))
        - ((idx : Int) - lastNewlineLE contents idx - 1) = (toks.length : Int)
    omega

/-- Witness for C6 on the text `ab` with query `a`. -/
theorem match_invariants_witness :
    (SMatch.mk ⟨0, 0⟩ ⟨0, 1⟩ ['a', 'b']).start.line
        = (SMatch.mk ⟨0, 0⟩ ⟨0, 1⟩ ['a', 'b']).stop.line
      ∧ (SMatch.mk ⟨0, 0⟩ ⟨0, 1⟩ ['a', 'b']).start.ch
          ≤ (SMatch.mk ⟨0, 0⟩ ⟨0, 1⟩ ['a', 'b']).stop.ch
      ∧ (SMatch.mk ⟨0, 0⟩ ⟨0, 1⟩ ['a', 'b']).stop.ch
          - (SMatch.mk ⟨0, 0⟩ ⟨0, 1⟩ ['a', 'b']).start.ch
          = (([RTok.lit 'a'] : List RTok).length : Int) :=
  match_invariants 3 true [RTok.lit 'a'] ['a', 'b']
    [⟨⟨0, 0⟩, ⟨0, 1⟩, ['a', 'b']⟩] ⟨⟨0, 0⟩, ⟨0, 1⟩, ['a', 'b']⟩
    (by decide) (by decide)

/-- C8: the extractor returns its empty result (the early `null`) exactly
when the pattern matches at no position of the text, and a returned match
array is never empty. -/
theorem extract_empty_iff_no_match (fuel : Nat) (ic : Bool) (toks : List RTok)
    (contents : List Char) (r : Option (List SMatch))
    (h : getSearchMatchesF fuel ic toks contents = some r) :
    (r = none ↔ ∀ k, matchToksAt ic toks (contents.drop k) = false)
    ∧ (∀ ms, r = some ms → ms ≠ []) := by
  unfold getSearchMatchesF at h
  by_cases hs : jsSearch ic toks contents = none
  · rw [if_pos hs] at h
    injection h with h
    subst h
    refine ⟨⟨fun _ => (firstMatchAux_eq_none_iff ic toks contents 0).mp hs, fun _ => rfl⟩, ?_⟩
    intro ms hms
    exact absurd hms (by simp)
  · rw [if_neg hs] at h
    rw [Option.map_eq_some'] at h
    obtain ⟨ms0, hms0, hr⟩ := h
    subst hr
    have hne : ms0 ≠ [] := by
      cases fuel with
      | zero => exact absurd hms0 (by simp [execLoop])
      | succ fuel =>
        unfold execLoop at hms0
        cases hj : jsExec ic toks contents 0 with
        | none =>
          exfalso
          apply hs
          unfold jsExec at hj
          rw [if_pos (Nat.zero_le _), List.drop_zero] at hj
          exact hj
        | some idx =>
          rw [hj] at hms0
          have hms0b : Option.map (fun ms => mkMatch contents idx toks.length :: ms)
              (execLoop ic toks contents fuel (idx + toks.length)) = some ms0 := hms0
          rw [Option.map_eq_some'] at hms0b
          obtain ⟨ms', _, hcons⟩ := hms0b
          rw [← hcons]
          simp
    refine ⟨⟨fun hcon => absurd hcon (by simp), fun hall => ?_⟩, ?_⟩
    · exact absurd ((firstMatchAux_eq_none_iff ic toks contents 0).mpr hall) hs
    · intro ms hms
      injection hms with hms
      rw [← hms]
      exact hne

/-- Witness for C8 on the text `b` with query `a` (no match). -/
theorem extract_empty_iff_no_match_witness :
    ((none : Option (List SMatch)) = none
        ↔ ∀ k, matchToksAt true [RTok.lit 'a'] (List.drop k ['b']) = false)
      ∧ (∀ ms, (none : Option (List SMatch)) = some ms → ms ≠ []) :=
  extract_empty_iff_no_match 2 true [RTok.lit 'a'] ['b'] none (by decide)

/-! ## Lemmas for the excerpt-truncation scenario -/

theorem matchToksAt_foo_x (rest : List Char) :
    matchToksAt true [RTok.lit 'f', RTok.lit 'o', RTok.lit 'o'] ('x' :: rest) = false := by
  simp [matchToksAt, tokMatches_lit_true,
    show Char.toLower 'f' ≠ Char.toLower 'x' from by decide]

theorem matchToksAt_foo_head (rest : List Char) :
    matchToksAt true [RTok.lit 'f', RTok.lit 'o', RTok.lit 'o']
      ('f' :: 'o' :: 'o' :: rest) = true := by
  simp [matchToksAt, tokMatches_lit_true]

theorem firstMatchAux_skip {ic : Bool} {toks : List RTok} {a : Char}
    (hx : ∀ rest, matchToksAt ic toks (a :: rest) = false) :
    ∀ (n : Nat) (s : List Char) (i : Nat),
      firstMatchAux ic toks (List.replicate n a ++ s) i
        = firstMatchAux ic toks s (i + n) := by
  intro n
  induction n with
  | zero => intro s i; simp
  | succ n ih =>
    intro s i
    rw [List.replicate_succ, List.cons_append]
    have hcond : ¬ (matchToksAt ic toks (a :: (List.replicate n a ++ s)) = true) := by
      simp [hx]
    have hstep : firstMatchAux ic toks (a :: (List.replicate n a ++ s)) i
        = if matchToksAt ic toks (a :: (List.replicate n a ++ s)) = true then some i
          else firstMatchAux ic toks (List.replicate n a ++ s) (i + 1) := rfl
    rw [hstep, if_neg hcond, ih s (i + 1)]
    congr 1
    omega

theorem firstMatchAux_foo_replicate (n i : Nat) :
    firstMatchAux true [RTok.lit 'f', RTok.lit 'o', RTok.lit 'o']
      (List.replicate n 'x') i = none := by
  have h := firstMatchAux_skip matchToksAt_foo_x n [] i
  rw [List.append_nil] at h
  rw [h]
  have hstep : firstMatchAux true [RTok.lit 'f', RTok.lit 'o', RTok.lit 'o']
      ([] : List Char) (i + n)
      = if matchToksAt true [RTok.lit 'f', RTok.lit 'o', RTok.lit 'o']
            ([] : List Char) = true
        then some (i + n) else none := rfl
  rw [hstep, if_neg (by simp [matchToksAt])]

theorem execLoop_exec_none {ic : Bool} {toks : List RTok} {contents : List Char}
    {L : Nat} (hj : jsExec ic toks contents L = none) :
    ∀ fuel, 0 < fuel → execLoop ic toks contents fuel L = some [] := by
  intro fuel hf
  cases fuel with
  | zero => omega
  | succ fuel =>
    unfold execLoop
    rw [hj]

theorem execLoop_one_match {ic : Bool} {toks : List RTok} {contents : List Char}
    {L idx : Nat} (h1 : jsExec ic toks contents L = some idx)
    (h2 : jsExec ic toks contents (idx + toks.length) = none) :
    ∀ fuel, 1 < fuel →
      execLoop ic toks contents fuel L = some [mkMatch contents idx toks.length] := by
  intro fuel hf
  cases fuel with
  | zero => omega
  | succ fuel =>
    unfold execLoop
    rw [h1]
    show Option.map (fun ms => mkMatch contents idx toks.length :: ms)
        (execLoop ic toks contents fuel (idx + toks.length)) = _
    rw [execLoop_exec_none h2 fuel (by omega)]
    rfl

theorem bigText_no_newline : ∀ c ∈ bigText, c ≠ '\n' := by
  intro c hc
  unfold bigText at hc
  rw [List.mem_append] at hc
  rcases hc with hc | hc
  · rw [List.mem_replicate] at hc
    rw [hc.2]; decide
  · simp only [List.mem_cons, List.mem_replicate] at hc
    rcases hc with rfl | rfl | rfl | ⟨-, rfl⟩ <;> decide

theorem getLines_no_newline :
    ∀ (s : List Char), (∀ c ∈ s, c ≠ '\n') → getLines s = [s] := by
  intro s
  induction s with
  | nil => intro _; rfl
  | cons c rest ih =>
    intro h
    have hc : c ≠ '\n' := h c (List.mem_cons_self c rest)
    have hr := ih (fun d hd => h d (List.mem_cons_of_mem c hd))
    unfold getLines
    rw [if_neg hc, hr]

theorem getD_ne_newline {s : List Char} (h : ∀ c ∈ s, c ≠ '\n') (j : Nat) :
    s.getD j ' ' ≠ '\n' := by
  rw [List.getD_eq_getElem?_getD]
  cases hq : s[j]? with
  | none => simp
  | some c =>
    have hmem := List.getElem?_mem hq
    simp only [Option.getD_some]
    exact h c hmem

theorem lastNewlineLE_no_newline {s : List Char} (h : ∀ c ∈ s, c ≠ '\n') (i : Nat) :
    lastNewlineLE s i = -1 := by
  unfold lastNewlineLE
  have hfil : (List.range (i + 1)).filter (fun j => s.getD j ' ' = '\n') = [] := by
    rw [List.filter_eq_nil_iff]
    intro j _
    simp only [decide_eq_true_eq]
    exact getD_ne_newline h j
  rw [hfil]
  rfl

theorem bigText_length : bigText.length = 10000 := by
  unfold bigText
  rw [List.length_append, List.length_replicate, List.length_cons, List.length_cons,
    List.length_cons, List.length_replicate]

theorem bigText_take_200 : bigText.take 200 = List.replicate 200 'x' := by
  unfold bigText
  rw [List.take_append_of_le_length (by rw [List.length_replicate]; norm_num),
    List.take_replicate]
  norm_num

theorem bigText_drop_5003 : bigText.drop 5003 = List.replicate 4997 'x' := by
  unfold bigText
  have h : (5003 : Nat) = (List.replicate 5000 'x').length + 3 := by
    rw [List.length_replicate]
  rw [h, List.drop_append]
  rfl

theorem bigText_first_match :
    firstMatchAux true [RTok.lit 'f', RTok.lit 'o', RTok.lit 'o'] bigText 0
      = some 5000 := by
  unfold bigText
  rw [firstMatchAux_skip matchToksAt_foo_x 5000 _ 0]
  have hstep : firstMatchAux true [RTok.lit 'f', RTok.lit 'o', RTok.lit 'o']
      ('f' :: 'o' :: 'o' :: List.replicate 4997 'x') (0 + 5000)
      = if matchToksAt true [RTok.lit 'f', RTok.lit 'o', RTok.lit 'o']
            ('f' :: 'o' :: 'o' :: List.replicate 4997 'x') = true
        then some (0 + 5000)
        else firstMatchAux true [RTok.lit 'f', RTok.lit 'o', RTok.lit 'o']
          ('o' :: 'o' :: List.replicate 4997 'x') (0 + 5000 + 1) := rfl
  rw [hstep, if_pos (matchToksAt_foo_head _)]

theorem offsetToLineNum_bigText : offsetToLineNum bigText 5000 = 0 := by
  unfold offsetToLineNum
  rw [List.count_eq_zero]
  intro hmem
  exact bigText_no_newline '\n' (List.take_subset _ _ hmem) rfl

theorem bigText_mkMatch :
    mkMatch bigText 5000 3 = ⟨⟨0, 5000⟩, ⟨0, 5003⟩, List.replicate 200 'x'⟩ := by
  have hlines : getLines bigText = [bigText] :=
    getLines_no_newline bigText bigText_no_newline
  have hlast : lastNewlineLE bigText 5000 = -1 :=
    lastNewlineLE_no_newline bigText_no_newline 5000
  have hmin : min 200 (10000 : Nat) = 200 := by norm_num
  unfold mkMatch
  rw [offsetToLineNum_bigText, hlast, hlines]
  show SMatch.mk ⟨0, (5000 : Int) - (-1) - 1⟩
      ⟨0, ((5000 : Int) - (-1) - 1) + ((3 : Nat) : Int)⟩
      (bigText.take (min 200 bigText.length)) = _
  rw [bigText_length, hmin, bigText_take_200]
  norm_num

theorem extractor_run_bigText :
    getSearchMatchesRun true [RTok.lit 'f', RTok.lit 'o', RTok.lit 'o'] bigText
      = some (some [⟨⟨0, 5000⟩, ⟨0, 5003⟩, List.replicate 200 'x'⟩]) := by
  have hexec1 : jsExec true [RTok.lit 'f', RTok.lit 'o', RTok.lit 'o'] bigText 0
      = some 5000 := by
    unfold jsExec
    rw [if_pos (Nat.zero_le _), List.drop_zero]
    exact bigText_first_match
  have hexec2 : jsExec true [RTok.lit 'f', RTok.lit 'o', RTok.lit 'o'] bigText
      (5000 + ([RTok.lit 'f', RTok.lit 'o', RTok.lit 'o'] : List RTok).length)
      = none := by
    have h53 : (5000 + ([RTok.lit 'f', RTok.lit 'o', RTok.lit 'o'] : List RTok).length : Nat)
        = 5003 := by norm_num
    rw [h53]
    unfold jsExec
    rw [if_pos (by rw [bigText_length]; norm_num), bigText_drop_5003]
    exact firstMatchAux_foo_replicate 4997 5003
  unfold getSearchMatchesRun getSearchMatchesF
  rw [if_neg (show ¬ (jsSearch true [RTok.lit 'f', RTok.lit 'o', RTok.lit 'o'] bigText
      = none) from by unfold jsSearch; rw [bigText_first_match]; simp)]
  rw [execLoop_one_match hexec1 hexec2 (bigText.length + 1)
    (by rw [bigText_length]; norm_num)]
  show some (some [mkMatch bigText 5000 3]) = _
  rw [bigText_mkMatch]

theorem getSearchMatchesF_execLoop {fuel : Nat} {ic : Bool} {toks : List RTok}
    {contents : List Char} {ms : List SMatch}
    (h : getSearchMatchesF fuel ic toks contents = some (some ms)) :
    execLoop ic toks contents fuel 0 = some ms := by
  unfold getSearchMatchesF at h
  by_cases hs : jsSearch ic toks contents = none
  · rw [if_pos hs] at h
    exact absurd h (by simp)
  · rw [if_neg hs] at h
    rw [Option.map_eq_some'] at h
    obtain ⟨ms', hms', heq⟩ := h
    injection heq with heq
    rw [heq] at hms'
    exact hms'

/-- C7: every extracted match stores as its excerpt the first
min(200, lineLength) characters of its containing line, while the columns
are computed against the untruncated line: on a 10,000-character single
line with the match at offset 5000 the excerpt is the first 200 characters
and the start/end columns remain 5000/5003. -/
theorem excerpt_truncation (fuel : Nat) (ic : Bool) (toks : List RTok)
    (contents : List Char) (ms : List SMatch) (m : SMatch)
    (h : getSearchMatchesF fuel ic toks contents = some (some ms)) (hm : m ∈ ms) :
    m.line = ((getLines contents).getD m.start.line []).take
        (min 200 ((getLines contents).getD m.start.line []).length)
    ∧ getSearchMatchesRun true [RTok.lit 'f', RTok.lit 'o', RTok.lit 'o'] bigText
        = some (some [⟨⟨0, 5000⟩, ⟨0, 5003⟩, List.replicate 200 'x'⟩]) := by
  refine ⟨?_, extractor_run_bigText⟩
  obtain ⟨idx, rfl⟩ := execLoop_mem ic toks contents fuel 0 ms
    (getSearchMatchesF_execLoop h) m hm
  rfl

/-- Witness for C7 on the text `ab` with query `a`. -/
theorem excerpt_truncation_witness :
    (SMatch.mk ⟨0, 0⟩ ⟨0, 1⟩ ['a', 'b']).line
      = ((getLines ['a', 'b']).getD (SMatch.mk ⟨0, 0⟩ ⟨0, 1⟩ ['a', 'b']).start.line []).take
          (min 200
            ((getLines ['a', 'b']).getD
              (SMatch.mk ⟨0, 0⟩ ⟨0, 1⟩ ['a', 'b']).start.line []).length) :=
  (excerpt_truncation 3 true [RTok.lit 'a'] ['a', 'b']
    [⟨⟨0, 0⟩, ⟨0, 1⟩, ['a', 'b']⟩] ⟨⟨0, 0⟩, ⟨0, 1⟩, ['a', 'b']⟩
    (by decide) (by decide)).1

/-! ## Orchestration claim -/

theorem doFind_foldl_filter (ic : Bool) (toks : List RTok) :
    ∀ (files : List (List Char × Option (List Char))) (acc : List FileResult),
      files.foldl (doFindStep ic toks) acc
        = (files.filter (fun fi => fi.2.isSome)).foldl (doFindStep ic toks) acc := by
  intro files
  induction files with
  | nil => intro acc; rfl
  | cons fi rest ih =>
    intro acc
    cases h2 : fi.2 with
    | none =>
      have hstep : doFindStep ic toks acc fi = acc := by
        unfold doFindStep
        rw [h2]
      have hfil : fi.2.isSome = false := by rw [h2]; rfl
      rw [List.foldl_cons, List.filter_cons, hfil, hstep, if_neg (by simp)]
      exact ih acc
    | some t =>
      have hfil : fi.2.isSome = true := by rw [h2]; rfl
      rw [List.foldl_cons, List.filter_cons, hfil, if_pos rfl, List.foldl_cons]
      exact ih (doFindStep ic toks acc fi)

/-- C9: a file whose text fails to load contributes no entry and does not
stop the batch: the result over any file list equals the result over the
successfully loaded files alone; with three files of which the second fails
to load, the result set has entries exactly for the other two. -/
theorem load_failures_skipped :
    (∀ (ic : Bool) (toks : List RTok) (files : List (List Char × Option (List Char))),
        doFindInFilesModel ic toks files
          = doFindInFilesModel ic toks (files.filter (fun fi => fi.2.isSome)))
    ∧ doFindInFilesModel true [RTok.lit 'f', RTok.lit 'o', RTok.lit 'o']
        [(['a'], some ['f', 'o', 'o']), (['b'], none),
         (['c'], some ['x', ' ', 'f', 'o', 'o', ' ', 'y'])]
      = [⟨['a'], [⟨⟨0, 0⟩, ⟨0, 3⟩, ['f', 'o', 'o']⟩]⟩,
         ⟨['c'], [⟨⟨0, 2⟩, ⟨0, 5⟩, ['x', ' ', 'f', 'o', 'o', ' ', 'y']⟩]⟩]
    ∧ (doFindInFilesModel true [RTok.lit 'f', RTok.lit 'o', RTok.lit 'o']
        [(['a'], some ['f', 'o', 'o']), (['b'], none),
         (['c'], some ['x', ' ', 'f', 'o', 'o', ' ', 'y'])]).map
          (fun r => r.fullPath) = [['a'], ['c']] :=
  ⟨fun ic toks files => doFind_foldl_filter ic toks files [], by decide, by decide⟩

end FindInFiles
